import Mathlib

/-!
Shallow embedding of the `crawler-for-llms` repository:

* `src/lib/crawler.ts` — the `Crawler` class (bounded breadth-first crawl
  with a seen-set, a FIFO frontier queue and a page accumulator);
* `src/lib/utils.ts` — `sliceIntoChunks`;
* `src/lib/seed.ts` (imported by the route handler) — the `seed` function
  combining the crawl with the chunking pass.

External collaborators (the network `fetch`, the cheerio/markdown
conversion `parseHtml`, the link extraction `extractUrls`, and the
langchain text splitter `splitText`) are modelled as abstract functions
bundled in a `World` value; the engine's control flow is translated
statement by statement from the source.
-/

/-- A crawled page: `interface Page { url: string; content: string }`. -/
structure Page where
  url : String
  content : String
deriving Repr, DecidableEq

/-- One frontier entry: `{ url: string; depth: number }`. -/
structure QueueEntry where
  url : String
  depth : Nat
deriving Repr, DecidableEq

/-- The mutable state of one `Crawler` instance: the constructor arguments
`maxDepth`/`maxPages` plus the instance fields `seen`, `pages`, `queue`. -/
structure Crawler where
  maxDepth : Nat
  maxPages : Nat
  seen : List String
  pages : List Page
  queue : List QueueEntry
deriving Repr, DecidableEq

/-- The external collaborators: `fetchResult url = none` models the network
`fetch` throwing, `some html` models a successful response body; `parseHtml`
is the cheerio + node-html-markdown conversion; `extractUrls html baseUrl`
is the anchor extraction with resolution against the base address. -/
structure World where
  fetchResult : String → Option String
  parseHtml : String → String
  extractUrls : String → String → List String

/-- `new Crawler(maxDepth, maxPages)`: fresh instance fields
`seen = new Set()`, `pages = []`, `queue = []`. -/
def Crawler.new (maxDepth maxPages : Nat) : Crawler :=
  { maxDepth := maxDepth, maxPages := maxPages, seen := [], pages := [], queue := [] }

/-- `isTooDeep(depth) { return depth > this.maxDepth }`. -/
def isTooDeep (c : Crawler) (depth : Nat) : Bool :=
  depth > c.maxDepth

/-- `isAlreadySeen(url) { return this.seen.has(url) }`. -/
def isAlreadySeen (c : Crawler) (url : String) : Bool :=
  c.seen.contains url

/-- `shouldContinueCrawling() { return this.queue.length > 0 && this.pages.length < this.maxPages }`. -/
def shouldContinueCrawling (c : Crawler) : Bool :=
  c.queue.length > 0 && c.pages.length < c.maxPages

/-- `addToQueue(url, depth = 0) { this.queue.push({url, depth}) }`. -/
def addToQueue (c : Crawler) (url : String) (depth : Nat) : Crawler :=
  { c with queue := c.queue ++ [{ url := url, depth := depth }] }

/-- `addNewUrlsToQueue(urls, depth) { this.queue.push(...urls.map(url => ({url, depth: depth+1}))) }`. -/
def addNewUrlsToQueue (c : Crawler) (urls : List String) (depth : Nat) : Crawler :=
  { c with queue := c.queue ++ urls.map (fun url => { url := url, depth := depth + 1 }) }

/-- `fetchPage(url)`: `try { return await (await fetch(url)).text() } catch { return '' }` —
a throwing fetch is recovered locally and degrades to the empty string. -/
def fetchPage (w : World) (url : String) : String :=
  (w.fetchResult url).getD ""

/-- One iteration of the `while` body of `crawl`: shift the front entry,
discard it when too deep or already seen, otherwise mark seen, fetch,
record the converted page and push the extracted links at `depth + 1`. -/
def crawlStep (w : World) (c : Crawler) : Crawler :=
  match c.queue with
  | [] => c
  | entry :: rest =>
      if isTooDeep c entry.depth || isAlreadySeen c entry.url then
        { c with queue := rest }
      else
        let html := fetchPage w entry.url
        addNewUrlsToQueue
          { c with seen := entry.url :: c.seen,
                   queue := rest,
                   pages := c.pages ++ [{ url := entry.url, content := w.parseHtml html }] }
          (w.extractUrls html entry.url) entry.depth

/-- The `while (this.shouldContinueCrawling())` loop of `crawl`. -/
def crawlLoop (w : World) (c : Crawler) : Crawler :=
  if h : shouldContinueCrawling c = true then crawlLoop w (crawlStep w c) else c
termination_by (c.maxPages - c.pages.length, c.queue.length)
decreasing_by
  simp only [shouldContinueCrawling, Bool.and_eq_true, decide_eq_true_eq] at h
  obtain ⟨hq, hp⟩ := h
  cases hqm : c.queue with
  | nil => simp [hqm] at hq
  | cons entry rest =>
      simp only [crawlStep, hqm]
      split
      · exact Prod.Lex.right _ (by simp [hqm])
      · exact Prod.Lex.left _ _ (by simp [addNewUrlsToQueue]; omega)

/-- `crawl(startUrl)`: enqueue the start address at depth 0, run the loop,
return `this.pages` (and the final instance state, which in the source
persists on the object). -/
def crawl (w : World) (c : Crawler) (startUrl : String) : List Page × Crawler :=
  let c1 := addToQueue c startUrl 0
  let c2 := crawlLoop w c1
  (c2.pages, c2)

/-- A chunk record produced by `seed`: `{ url, content: chunk }`. -/
structure ChunkRecord where
  url : String
  content : String
deriving Repr, DecidableEq

/-- The optional `splitterOptions` argument of `seed`: fields that are
present override the defaults by object spread. -/
structure SplitterOptions where
  chunkSize : Option Nat
  chunkOverlap : Option Nat
deriving Repr, DecidableEq

/-- The effective parameters the `RecursiveCharacterTextSplitter` is
constructed with. -/
structure SplitterParams where
  chunkSize : Nat
  chunkOverlap : Nat
deriving Repr, DecidableEq

/-- `new RecursiveCharacterTextSplitter({ chunkSize: 1000, chunkOverlap: 200, ...splitterOptions })`:
the literal defaults, overridden by whichever fields `splitterOptions` supplies. -/
def mkSplitterParams (o : Option SplitterOptions) : SplitterParams :=
  match o with
  | none => { chunkSize := 1000, chunkOverlap := 200 }
  | some opts =>
      { chunkSize := opts.chunkSize.getD 1000, chunkOverlap := opts.chunkOverlap.getD 200 }

/-- The chunking loop of `seed`: for each page push one document per chunk
of `splitText(page.content)`, tagged with the page's url, onto `documents`. -/
def seedDocs (splitText : String → List String) (pages : List Page) : List ChunkRecord :=
  pages.foldl
    (fun documents page =>
      (splitText page.content).foldl
        (fun documents chunk => documents ++ [{ url := page.url, content := chunk }])
        documents)
    []

/-- `seed(startUrl, maxDepth = 2, maxPages = 1, splitterOptions?)`: crawl
with a fresh `Crawler`, then run the chunking pass with the text splitter
collaborator instantiated at the effective splitter parameters. -/
def seed (w : World) (splitText : SplitterParams → String → List String)
    (startUrl : String) (maxDepth maxPages : Option Nat)
    (splitterOptions : Option SplitterOptions) : List ChunkRecord :=
  let crawler := Crawler.new (maxDepth.getD 2) (maxPages.getD 1)
  let pages := (crawl w crawler startUrl).1
  seedDocs (splitText (mkSplitterParams splitterOptions)) pages

/-- `sliceIntoChunks(arr, chunkSize)`:
`Array.from({length: Math.ceil(arr.length / chunkSize)}, (_, i) => arr.slice(i*chunkSize, (i+1)*chunkSize))`. -/
def sliceIntoChunks {α : Type} (arr : List α) (chunkSize : Nat) : List (List α) :=
  (List.range ((arr.length + chunkSize - 1) / chunkSize)).map
    (fun i => (arr.drop (i * chunkSize)).take chunkSize)

/-- The successors of an address in the link graph induced by the
collaborators: the urls extracted from the fetched page at that address. -/
def succs (w : World) (u : String) : List String :=
  w.extractUrls (fetchPage w u) u

/-- Reachability from `start` in exactly `n` link hops through the graph
induced by the collaborators. -/
inductive Reach (w : World) (start : String) : Nat → String → Prop
  | refl : Reach w start 0 start
  | step : ∀ {n u v}, Reach w start n u → v ∈ succs w u → Reach w start (n + 1) v

/-- Reachability from `start` in at most `d` link hops. -/
def ReachWithin (w : World) (start : String) (d : Nat) (u : String) : Prop :=
  ∃ k, k ≤ d ∧ Reach w start k u

/-- Breadth-first shape of the frontier: depths are nondecreasing from the
front, and any two entries' depths differ by at most one. -/
def queueBFS (c : Crawler) : Prop :=
  List.Pairwise (fun a b => a.depth ≤ b.depth) c.queue ∧
  ∀ a ∈ c.queue, ∀ b ∈ c.queue, b.depth ≤ a.depth + 1

/-- A concrete world for test runs: every fetch succeeds with empty markup,
conversion is the identity, and no links are ever extracted. -/
def wEmpty : World :=
  { fetchResult := fun _ => some "",
    parseHtml := fun h => h,
    extractUrls := fun _ _ => [] }

/-- A concrete world where every fetch throws and the converter tags its
input, used to exercise the failure path. -/
def wFail : World :=
  { fetchResult := fun _ => none,
    parseHtml := fun h => String.append "md:" h,
    extractUrls := fun _ _ => [] }

/-- A concrete world with one level of links: the page at `"a"` links to
`"b"` and `"c"`, everything else is a leaf. -/
def wLinks : World :=
  { fetchResult := fun u => some u,
    parseHtml := fun h => h,
    extractUrls := fun html _ => if html = "a" then ["b", "c"] else [] }

theorem crawlStep_maxPages (w : World) (c : Crawler) :
    (crawlStep w c).maxPages = c.maxPages := by
  unfold crawlStep
  cases c.queue with
  | nil => rfl
  | cons entry rest => dsimp only; split <;> simp [addNewUrlsToQueue]

theorem crawlStep_maxDepth (w : World) (c : Crawler) :
    (crawlStep w c).maxDepth = c.maxDepth := by
  unfold crawlStep
  cases c.queue with
  | nil => rfl
  | cons entry rest => dsimp only; split <;> simp [addNewUrlsToQueue]

theorem crawlLoop_go (w : World) (c : Crawler) (h : shouldContinueCrawling c = true) :
    crawlLoop w c = crawlLoop w (crawlStep w c) := by
  conv_lhs => unfold crawlLoop
  rw [dif_pos h]

theorem crawlLoop_stop (w : World) (c : Crawler) (h : shouldContinueCrawling c = false) :
    crawlLoop w c = c := by
  conv_lhs => unfold crawlLoop
  rw [dif_neg (by simp [h])]

theorem crawlStep_skip (w : World) (c : Crawler) (e : QueueEntry) (rest : List QueueEntry)
    (hq : c.queue = e :: rest)
    (h : (isTooDeep c e.depth || isAlreadySeen c e.url) = true) :
    crawlStep w c = { c with queue := rest } := by
  unfold crawlStep
  rw [hq]
  dsimp only
  rw [if_pos h]

theorem crawlStep_process (w : World) (c : Crawler) (e : QueueEntry) (rest : List QueueEntry)
    (hq : c.queue = e :: rest)
    (hd : isTooDeep c e.depth = false) (hs : isAlreadySeen c e.url = false) :
    crawlStep w c =
      { c with
        seen := e.url :: c.seen,
        pages := c.pages ++ [{ url := e.url, content := w.parseHtml (fetchPage w e.url) }],
        queue := rest ++ (w.extractUrls (fetchPage w e.url) e.url).map
          (fun url => { url := url, depth := e.depth + 1 }) } := by
  unfold crawlStep
  rw [hq]
  dsimp only
  rw [if_neg (by simp [hd, hs])]
  simp only [addNewUrlsToQueue]

theorem crawlLoop_inv (w : World) (P : Crawler → Prop)
    (hstep : ∀ c, P c → shouldContinueCrawling c = true → P (crawlStep w c))
    (c : Crawler) (hc : P c) : P (crawlLoop w c) := by
  by_cases h : shouldContinueCrawling c = true
  · rw [crawlLoop_go w c h]
    exact crawlLoop_inv w P hstep (crawlStep w c) (hstep c hc h)
  · rw [crawlLoop_stop w c (by simpa using h)]
    exact hc
termination_by (c.maxPages - c.pages.length, c.queue.length)
decreasing_by
  simp only [shouldContinueCrawling, Bool.and_eq_true, decide_eq_true_eq] at h
  obtain ⟨hq, hp⟩ := h
  cases hqm : c.queue with
  | nil => simp [hqm] at hq
  | cons entry rest =>
      rw [crawlStep_maxPages]
      unfold crawlStep
      rw [hqm]
      dsimp only
      split
      · exact Prod.Lex.right _ (by simp [hqm])
      · exact Prod.Lex.left _ _ (by simp [addNewUrlsToQueue]; omega)

theorem crawlStep_pages_extend (w : World) (c : Crawler) :
    ∃ t, (crawlStep w c).pages = c.pages ++ t := by
  unfold crawlStep
  cases c.queue with
  | nil => exact ⟨[], by simp⟩
  | cons entry rest =>
      dsimp only
      split
      · exact ⟨[], by simp⟩
      · exact ⟨[{ url := entry.url, content := w.parseHtml (fetchPage w entry.url) }],
          by simp [addNewUrlsToQueue]⟩

theorem crawlLoop_pages_extend (w : World) (c : Crawler) :
    ∃ t, (crawlLoop w c).pages = c.pages ++ t := by
  have h := crawlLoop_inv w (fun c2 => ∃ t, c2.pages = c.pages ++ t)
    (fun c2 hc2 _ => by
      obtain ⟨t, ht⟩ := hc2
      obtain ⟨t2, ht2⟩ := crawlStep_pages_extend w c2
      exact ⟨t ++ t2, by rw [ht2, ht, List.append_assoc]⟩)
    c ⟨[], by simp⟩
  exact h

theorem sliceIntoChunks_nil {α : Type} (k : Nat) :
    sliceIntoChunks ([] : List α) k = [] := by
  have h : (k - 1) / k = 0 := by
    rcases Nat.eq_zero_or_pos k with h | h
    · simp [h]
    · exact Nat.div_eq_of_lt (by omega)
  simp [sliceIntoChunks, h]

theorem sliceIntoChunks_cons {α : Type} (arr : List α) (k : Nat)
    (hk : 1 ≤ k) (hne : arr ≠ []) :
    sliceIntoChunks arr k = arr.take k :: sliceIntoChunks (arr.drop k) k := by
  have hlen : 1 ≤ arr.length := by
    cases arr with
    | nil => exact absurd rfl hne
    | cons a l => simp
  unfold sliceIntoChunks
  have hcount : (arr.length + k - 1) / k = ((arr.drop k).length + k - 1) / k + 1 := by
    rw [List.length_drop]
    rcases le_or_lt arr.length k with h | h
    · have h1 : arr.length - k = 0 := by omega
      have h2 : (0 + k - 1) / k = 0 := Nat.div_eq_of_lt (by omega)
      have h3 : arr.length + k - 1 = (arr.length - 1) + k := by omega
      have h4 : (arr.length - 1) / k = 0 := Nat.div_eq_of_lt (by omega)
      rw [h1, h2, h3, Nat.add_div_right _ (by omega), h4]
    · have h3 : arr.length + k - 1 = (arr.length - 1) + k := by omega
      have h5 : arr.length - k + k - 1 = (arr.length - k - 1) + k := by omega
      have h6 : arr.length - 1 = (arr.length - k - 1) + k := by omega
      rw [h3, Nat.add_div_right _ (by omega), h5, Nat.add_div_right _ (by omega), h6,
        Nat.add_div_right _ (by omega)]
  rw [hcount, List.range_succ_eq_map, List.map_cons]
  congr 1
  · simp
  · rw [List.map_map]
    apply List.map_congr_left
    intro i _
    simp only [Function.comp_apply]
    rw [List.drop_drop]
    congr 2
    rw [Nat.succ_mul]
    exact Nat.add_comm _ _

theorem sliceIntoChunks_flatten {α : Type} (arr : List α) (k : Nat) (hk : 1 ≤ k) :
    (sliceIntoChunks arr k).flatten = arr := by
  by_cases h : arr = []
  · subst h
    rw [sliceIntoChunks_nil]
    rfl
  · rw [sliceIntoChunks_cons arr k hk h, List.flatten_cons,
      sliceIntoChunks_flatten (arr.drop k) k hk, List.take_append_drop]
termination_by arr.length
decreasing_by
  have : 1 ≤ arr.length := by
    cases arr with
    | nil => exact absurd rfl h
    | cons a l => simp
  simp only [List.length_drop]
  omega

theorem sliceIntoChunks_chunk_le {α : Type} (arr : List α) (k : Nat) :
    ∀ ch ∈ sliceIntoChunks arr k, ch.length ≤ k := by
  intro ch hch
  unfold sliceIntoChunks at hch
  simp only [List.mem_map] at hch
  obtain ⟨i, _, rfl⟩ := hch
  rw [List.length_take]
  omega

theorem sliceIntoChunks_dropLast_full {α : Type} (arr : List α) (k : Nat) (hk : 1 ≤ k) :
    ∀ ch ∈ (sliceIntoChunks arr k).dropLast, ch.length = k := by
  by_cases h : arr = []
  · subst h
    rw [sliceIntoChunks_nil]
    intro ch hch
    simp at hch
  · rw [sliceIntoChunks_cons arr k hk h]
    cases hrec : sliceIntoChunks (arr.drop k) k with
    | nil =>
        intro ch hch
        simp at hch
    | cons c cs =>
        intro ch hch
        rw [List.dropLast_cons₂] at hch
        rcases List.mem_cons.mp hch with hh | hh
        · have hd : arr.drop k ≠ [] := by
            intro hd
            rw [hd, sliceIntoChunks_nil] at hrec
            exact List.cons_ne_nil c cs hrec.symm
          have hkl : k < arr.length := by
            have h1 : (arr.drop k).length ≠ 0 := by
              intro h0
              exact hd (List.length_eq_zero.mp h0)
            rw [List.length_drop] at h1
            omega
          rw [hh, List.length_take]
          omega
        · have hrest := sliceIntoChunks_dropLast_full (arr.drop k) k hk
          rw [hrec] at hrest
          exact hrest ch hh
termination_by arr.length
decreasing_by
  have : 1 ≤ arr.length := by
    cases arr with
    | nil => exact absurd rfl h
    | cons a l => simp
  simp only [List.length_drop]
  omega

/-- C10: for every array and every chunk size at least 1, the chunks of
`sliceIntoChunks` concatenate back to the array in order, no chunk is
longer than `chunkSize`, every chunk except possibly the last has length
exactly `chunkSize`, and the empty array yields no chunks. -/
theorem sliceIntoChunks_spec {α : Type} (arr : List α) (k : Nat) (hk : 1 ≤ k) :
    (sliceIntoChunks arr k).flatten = arr ∧
    (∀ ch ∈ sliceIntoChunks arr k, ch.length ≤ k) ∧
    (∀ ch ∈ (sliceIntoChunks arr k).dropLast, ch.length = k) ∧
    sliceIntoChunks ([] : List α) k = [] :=
  ⟨sliceIntoChunks_flatten arr k hk, sliceIntoChunks_chunk_le arr k,
    sliceIntoChunks_dropLast_full arr k hk, sliceIntoChunks_nil k⟩

/-- Witness for C10 at `arr = [1,2,3,4,5]`, `chunkSize = 2`. -/
theorem sliceIntoChunks_spec_witness :
    (sliceIntoChunks [1, 2, 3, 4, 5] 2).flatten = [1, 2, 3, 4, 5] ∧
    (∀ ch ∈ sliceIntoChunks [1, 2, 3, 4, 5] 2, ch.length ≤ 2) ∧
    (∀ ch ∈ (sliceIntoChunks [1, 2, 3, 4, 5] 2).dropLast, ch.length = 2) ∧
    sliceIntoChunks ([] : List Nat) 2 = [] :=
  sliceIntoChunks_spec [1, 2, 3, 4, 5] 2 (by decide)

/-- C7: a configuration of `maxPages = 0` makes `crawl` return an empty
result immediately: the loop condition is false from the start, so nothing
is dequeued, no fetch happens, and the final state still holds the
untouched seed entry with empty seen set and empty accumulator. -/
theorem crawl_maxPages_zero (w : World) (d : Nat) (s : String) :
    crawl w (Crawler.new d 0) s =
      ([], { maxDepth := d, maxPages := 0, seen := [], pages := [],
             queue := [{ url := s, depth := 0 }] }) := by
  have h : shouldContinueCrawling (Crawler.mk d 0 [] [] [QueueEntry.mk s 0]) = false := rfl
  unfold crawl addToQueue Crawler.new
  dsimp only
  simp only [List.nil_append]
  rw [crawlLoop_stop _ _ h]

/-- C9: the implicit defaults of `seed`: omitted `maxDepth`/`maxPages`
default to 2 and 1, omitted splitter options default to
`chunkSize = 1000` and `chunkOverlap = 200`, and explicitly supplied
splitter option fields override those chunking defaults. -/
theorem seed_defaults (w : World) (splitText : SplitterParams → String → List String)
    (s : String) :
    seed w splitText s none none none =
      seedDocs (splitText { chunkSize := 1000, chunkOverlap := 200 })
        (crawl w (Crawler.new 2 1) s).1 ∧
    (∀ a b : Nat,
      mkSplitterParams (some { chunkSize := some a, chunkOverlap := some b }) =
        { chunkSize := a, chunkOverlap := b }) ∧
    (∀ b : Nat,
      mkSplitterParams (some { chunkSize := none, chunkOverlap := some b }) =
        { chunkSize := 1000, chunkOverlap := b }) ∧
    (∀ a : Nat,
      mkSplitterParams (some { chunkSize := some a, chunkOverlap := none }) =
        { chunkSize := a, chunkOverlap := 200 }) :=
  ⟨rfl, fun _ _ => rfl, fun _ => rfl, fun _ => rfl⟩

theorem foldl_push_append {β : Type} (f : β → ChunkRecord) (l : List β)
    (acc : List ChunkRecord) :
    l.foldl (fun ds b => ds ++ [f b]) acc = acc ++ l.map f := by
  induction l generalizing acc with
  | nil => simp
  | cons b t ih => simp [ih]

theorem seedDocs_accumulate (split : String → List String) (pages : List Page)
    (acc : List ChunkRecord) :
    pages.foldl
      (fun documents page =>
        (split page.content).foldl
          (fun documents chunk => documents ++ [{ url := page.url, content := chunk }])
          documents)
      acc =
    acc ++ (pages.map (fun p => (split p.content).map
      (fun chunk => ({ url := p.url, content := chunk } : ChunkRecord)))).flatten := by
  induction pages generalizing acc with
  | nil => simp
  | cons p ps ih =>
      simp only [List.foldl_cons]
      rw [foldl_push_append, ih]
      simp [List.append_assoc]

/-- C6: the chunking pass preserves order and source tagging: its output is
the in-order concatenation of each page's chunk list, chunks of one page
keep the splitter's left-to-right order and carry that page's address, and
a page whose text splits into zero chunks contributes zero records. -/
theorem seedDocs_spec (split : String → List String) (pages : List Page) :
    seedDocs split pages =
      (pages.map (fun p => (split p.content).map
        (fun chunk => ({ url := p.url, content := chunk } : ChunkRecord)))).flatten ∧
    (∀ (ps1 ps2 : List Page) (p : Page),
      seedDocs split (ps1 ++ p :: ps2) =
        seedDocs split ps1 ++
          (split p.content).map (fun chunk => ({ url := p.url, content := chunk } : ChunkRecord)) ++
          seedDocs split ps2) := by
  constructor
  · unfold seedDocs
    simpa using seedDocs_accumulate split pages []
  · intro ps1 ps2 p
    unfold seedDocs
    simp only [seedDocs_accumulate]
    simp [List.append_assoc]

theorem crawlStep_pages_len (w : World) (c : Crawler) :
    (crawlStep w c).pages.length ≤ c.pages.length + 1 := by
  obtain ⟨t, ht⟩ := crawlStep_pages_extend w c
  rcases t with _ | ⟨x, t2⟩
  · simp [ht]
  · have h1 : (crawlStep w c).pages = c.pages ++ [x] ++ t2 := by
      rw [ht]; simp
    by_cases h2 : t2 = []
    · rw [h2] at h1; simp [h1]
    · exfalso
      unfold crawlStep at ht
      rcases hq : c.queue with _ | ⟨e, rest⟩
      · rw [hq] at ht; simp at ht
      · rw [hq] at ht
        dsimp only at ht
        split at ht
        · simp at ht
        · simp [addNewUrlsToQueue] at ht
          obtain ⟨-, ht2⟩ := ht
          exact h2 ht2

/-- C1: for every crawl from a fresh engine the returned page list never
exceeds `maxPages`, and the bound `|pages| ≤ maxPages` is an invariant of
every iteration of the loop. -/
theorem crawl_results_le_maxPages :
    (∀ (w : World) (d m : Nat) (s : String),
      (crawl w (Crawler.new d m) s).1.length ≤ m) ∧
    (∀ (w : World) (c : Crawler), c.pages.length ≤ c.maxPages →
      (crawlLoop w c).pages.length ≤ c.maxPages) := by
  have key : ∀ (w : World) (c : Crawler), c.pages.length ≤ c.maxPages →
      (crawlLoop w c).pages.length ≤ c.maxPages := by
    intro w c hc
    have h := crawlLoop_inv w
      (fun c2 => c2.maxPages = c.maxPages ∧ c2.pages.length ≤ c.maxPages)
      (fun c2 hc2 hcont => by
        constructor
        · rw [crawlStep_maxPages, hc2.1]
        · have hlt : c2.pages.length < c2.maxPages := by
            simp only [shouldContinueCrawling, Bool.and_eq_true, decide_eq_true_eq] at hcont
            exact hcont.2
          have := crawlStep_pages_len w c2
          omega)
      c ⟨rfl, hc⟩
    exact h.2
  refine ⟨fun w d m s => ?_, key⟩
  exact key w (addToQueue (Crawler.new d m) s 0) (by simp [addToQueue, Crawler.new])

/-- Witness for C1's loop invariant at a concrete engine state. -/
theorem crawl_results_le_maxPages_witness :
    (crawlLoop wEmpty (Crawler.mk 2 1 [] [] [QueueEntry.mk "a" 0])).pages.length ≤ 1 :=
  crawl_results_le_maxPages.2 wEmpty (Crawler.mk 2 1 [] [] [QueueEntry.mk "a" 0])
    (by decide)

theorem crawlStep_nodup_inv (w : World) (c : Crawler)
    (h1 : (c.pages.map Page.url).Nodup) (h2 : ∀ p ∈ c.pages, p.url ∈ c.seen) :
    ((crawlStep w c).pages.map Page.url).Nodup ∧
    ∀ p ∈ (crawlStep w c).pages, p.url ∈ (crawlStep w c).seen := by
  rcases hq : c.queue with _ | ⟨e, rest⟩
  · unfold crawlStep
    rw [hq]
    exact ⟨h1, h2⟩
  · by_cases hc : (isTooDeep c e.depth || isAlreadySeen c e.url) = true
    · rw [crawlStep_skip w c e rest hq hc]
      exact ⟨h1, h2⟩
    · simp only [Bool.or_eq_true, not_or, Bool.not_eq_true] at hc
      rw [crawlStep_process w c e rest hq hc.1 hc.2]
      have hnotseen : e.url ∉ c.seen := by
        have h3 := hc.2
        simp [isAlreadySeen] at h3
        exact h3
      constructor
      · simp only [List.map_append, List.map_cons, List.map_nil]
        rw [List.nodup_append]
        refine ⟨h1, List.nodup_singleton _, ?_⟩
        intro a ha
        simp only [List.mem_singleton]
        intro hb
        subst hb
        simp only [List.mem_map] at ha
        obtain ⟨p, hp, hpu⟩ := ha
        exact hnotseen (hpu ▸ h2 p hp)
      · intro p hp
        rcases List.mem_append.mp hp with hp1 | hp2
        · exact List.mem_cons_of_mem _ (h2 p hp1)
        · simp only [List.mem_singleton] at hp2
          subst hp2
          exact List.mem_cons_self _ _

/-- C2: no address appears twice in the returned page sequence — the urls
of the crawl result are pairwise distinct — and a dequeued entry whose
address is already in the seen set is discarded: the step only drops the
front frontier entry, recording no page and touching no other state. -/
theorem crawl_no_duplicate_pages :
    (∀ (w : World) (d m : Nat) (s : String),
      ((crawl w (Crawler.new d m) s).1.map Page.url).Nodup) ∧
    (∀ (w : World) (c : Crawler) (e : QueueEntry) (rest : List QueueEntry),
      c.queue = e :: rest → isAlreadySeen c e.url = true →
      crawlStep w c = { c with queue := rest }) := by
  constructor
  · intro w d m s
    have h := crawlLoop_inv w
      (fun c2 => (c2.pages.map Page.url).Nodup ∧ ∀ p ∈ c2.pages, p.url ∈ c2.seen)
      (fun c2 hc2 _ => crawlStep_nodup_inv w c2 hc2.1 hc2.2)
      (addToQueue (Crawler.new d m) s 0)
      (by simp [addToQueue, Crawler.new])
    exact h.1
  · intro w c e rest hq hs
    exact crawlStep_skip w c e rest hq (by simp [hs])

/-- Witness for C2's discard rule: an entry for the already-seen address
`"a"` is dequeued and dropped without a fetch or a page record. -/
theorem crawl_no_duplicate_pages_witness :
    crawlStep wEmpty (Crawler.mk 2 5 ["a"] [] [QueueEntry.mk "a" 1]) =
      Crawler.mk 2 5 ["a"] [] [] :=
  crawl_no_duplicate_pages.2 wEmpty (Crawler.mk 2 5 ["a"] [] [QueueEntry.mk "a" 1])
    (QueueEntry.mk "a" 1) [] rfl (by decide)

theorem reachWithin_mono (w : World) (start : String) {d1 d2 : Nat} {u : String}
    (h : d1 ≤ d2) (hr : ReachWithin w start d1 u) : ReachWithin w start d2 u := by
  obtain ⟨k, hk, r⟩ := hr
  exact ⟨k, le_trans hk h, r⟩

theorem crawlStep_reach_inv (w : World) (start : String) (c : Crawler)
    (h1 : ∀ e ∈ c.queue, ReachWithin w start e.depth e.url)
    (h2 : ∀ p ∈ c.pages, ReachWithin w start c.maxDepth p.url) :
    (∀ e ∈ (crawlStep w c).queue, ReachWithin w start e.depth e.url) ∧
    ∀ p ∈ (crawlStep w c).pages, ReachWithin w start (crawlStep w c).maxDepth p.url := by
  rcases hq : c.queue with _ | ⟨e, rest⟩
  · unfold crawlStep
    rw [hq]
    exact ⟨h1, h2⟩
  · by_cases hc : (isTooDeep c e.depth || isAlreadySeen c e.url) = true
    · rw [crawlStep_skip w c e rest hq hc]
      exact ⟨fun e2 he2 => h1 e2 (hq ▸ List.mem_cons_of_mem e he2), h2⟩
    · simp only [Bool.or_eq_true, not_or, Bool.not_eq_true] at hc
      have hdepth : e.depth ≤ c.maxDepth := by
        have h3 := hc.1
        simp [isTooDeep] at h3
        exact h3
      have hereach : ReachWithin w start e.depth e.url :=
        h1 e (hq ▸ List.mem_cons_self e rest)
      rw [crawlStep_process w c e rest hq hc.1 hc.2]
      constructor
      · intro e2 he2
        rcases List.mem_append.mp he2 with he3 | he3
        · exact h1 e2 (hq ▸ List.mem_cons_of_mem e he3)
        · simp only [List.mem_map] at he3
          obtain ⟨u, hu, rfl⟩ := he3
          obtain ⟨k, hk, r⟩ := hereach
          exact ⟨k + 1, by show k + 1 ≤ e.depth + 1; omega, Reach.step r hu⟩
      · intro p hp
        rcases List.mem_append.mp hp with hp1 | hp2
        · exact h2 p hp1
        · simp only [List.mem_singleton] at hp2
          subst hp2
          exact reachWithin_mono w start hdepth hereach

/-- C3: with `maxDepth = D`, every page the crawl returns has an address
reachable from the start address within `D` link hops through the link
graph induced by the collaborators, and a dequeued entry deeper than `D`
is discarded: the step only drops the front frontier entry, with no fetch
and no page record. -/
theorem crawl_depth_bound :
    (∀ (w : World) (d m : Nat) (s : String), ∀ p ∈ (crawl w (Crawler.new d m) s).1,
      ReachWithin w s d p.url) ∧
    (∀ (w : World) (c : Crawler) (e : QueueEntry) (rest : List QueueEntry),
      c.queue = e :: rest → isTooDeep c e.depth = true →
      crawlStep w c = { c with queue := rest }) := by
  constructor
  · intro w d m s
    have h := crawlLoop_inv w
      (fun c2 => c2.maxDepth = d ∧ (∀ e ∈ c2.queue, ReachWithin w s e.depth e.url) ∧
        ∀ p ∈ c2.pages, ReachWithin w s c2.maxDepth p.url)
      (fun c2 hc2 _ => by
        have h3 := crawlStep_reach_inv w s c2 hc2.2.1 hc2.2.2
        exact ⟨(crawlStep_maxDepth w c2).trans hc2.1, h3.1, h3.2⟩)
      (addToQueue (Crawler.new d m) s 0)
      (by
        refine ⟨rfl, ?_, by simp [addToQueue, Crawler.new]⟩
        intro e he
        simp only [addToQueue, Crawler.new, List.nil_append, List.mem_singleton] at he
        subst he
        exact ⟨0, Nat.le_refl 0, Reach.refl⟩)
    intro p hp
    have h4 := h.2.2 p hp
    rw [h.1] at h4
    exact h4
  · intro w c e rest hq hd
    exact crawlStep_skip w c e rest hq (by simp [hd])

/-- Witness for C3: in the world `wLinks` the crawl from `"a"` returns the
seed page, whose address is reachable within 2 hops, and an entry at depth
3 with `maxDepth = 2` is discarded by the step. -/
theorem crawl_depth_bound_witness :
    ReachWithin wLinks "a" 2 (Page.mk "a" "a").url ∧
    crawlStep wEmpty (Crawler.mk 2 5 [] [] [QueueEntry.mk "b" 3]) =
      Crawler.mk 2 5 [] [] [] := by
  constructor
  · apply crawl_depth_bound.1 wLinks 2 1 "a" (Page.mk "a" "a")
    rw [show crawl wLinks (Crawler.new 2 1) "a" =
      ((crawlLoop wLinks (addToQueue (Crawler.new 2 1) "a" 0)).pages,
       crawlLoop wLinks (addToQueue (Crawler.new 2 1) "a" 0)) from rfl]
    rw [crawlLoop_go _ _ (by decide), crawlLoop_stop _ _ (by decide)]
    decide
  · exact crawl_depth_bound.2 wEmpty (Crawler.mk 2 5 [] [] [QueueEntry.mk "b" 3])
      (QueueEntry.mk "b" 3) [] rfl (by decide)

/-- C4: a fetch failure is non-fatal: the page fetcher returns the empty
string instead of propagating the error, the engine still records a page
for that address with the text converted from empty content and keeps the
traversal going, and a failed seed address still occupies the first of the
`maxPages` result slots. -/
theorem fetch_failure_nonfatal :
    (∀ (w : World) (url : String), w.fetchResult url = none → fetchPage w url = "") ∧
    (∀ (w : World) (c : Crawler) (e : QueueEntry) (rest : List QueueEntry),
      c.queue = e :: rest → isTooDeep c e.depth = false → isAlreadySeen c e.url = false →
      w.fetchResult e.url = none →
      crawlStep w c =
        { c with seen := e.url :: c.seen,
                 pages := c.pages ++ [{ url := e.url, content := w.parseHtml "" }],
                 queue := rest ++ (w.extractUrls "" e.url).map
                   (fun url => { url := url, depth := e.depth + 1 }) }) ∧
    (∀ (w : World) (d m : Nat) (s : String), 1 ≤ m → w.fetchResult s = none →
      (crawl w (Crawler.new d m) s).1.head? =
        some { url := s, content := w.parseHtml "" }) := by
  have hfetch : ∀ (w : World) (url : String), w.fetchResult url = none →
      fetchPage w url = "" := by
    intro w url hf
    unfold fetchPage
    rw [hf]
    rfl
  refine ⟨hfetch, fun w c e rest hq hd hs hf => ?_, fun w d m s hm hf => ?_⟩
  · rw [crawlStep_process w c e rest hq hd hs, hfetch w e.url hf]
  · have hq1 : (addToQueue (Crawler.new d m) s 0).queue = QueueEntry.mk s 0 :: [] := by
      simp [addToQueue, Crawler.new]
    have hcont : shouldContinueCrawling (addToQueue (Crawler.new d m) s 0) = true := by
      simp [addToQueue, Crawler.new, shouldContinueCrawling]
      omega
    have hstep : crawlStep w (addToQueue (Crawler.new d m) s 0) =
        { maxDepth := d, maxPages := m, seen := [s],
          pages := [Page.mk s (w.parseHtml "")],
          queue := (w.extractUrls "" s).map (fun url => QueueEntry.mk url 1) } := by
      rw [crawlStep_process w _ (QueueEntry.mk s 0) [] hq1
        (by simp [isTooDeep, addToQueue, Crawler.new])
        (by simp [isAlreadySeen, addToQueue, Crawler.new]),
        hfetch w s hf]
      simp [addToQueue, Crawler.new]
    have hrun : (crawl w (Crawler.new d m) s).1 =
        (crawlLoop w (addToQueue (Crawler.new d m) s 0)).pages := rfl
    rw [hrun, crawlLoop_go w _ hcont, hstep]
    obtain ⟨t, ht⟩ := crawlLoop_pages_extend w
      { maxDepth := d, maxPages := m, seen := [s],
        pages := [Page.mk s (w.parseHtml "")],
        queue := (w.extractUrls "" s).map (fun url => QueueEntry.mk url 1) }
    rw [ht]
    rfl

/-- Witness for C4 in the all-fetches-fail world `wFail`: the fetcher
degrades to empty content, the step records the failed page, and the
failed seed still heads the one-slot result. -/
theorem fetch_failure_nonfatal_witness :
    fetchPage wFail "a" = "" ∧
    crawlStep wFail (Crawler.mk 2 1 [] [] [QueueEntry.mk "a" 0]) =
      Crawler.mk 2 1 ["a"] [Page.mk "a" (wFail.parseHtml "")] [] ∧
    (crawl wFail (Crawler.new 2 1) "a").1.head? =
      some (Page.mk "a" (wFail.parseHtml "")) :=
  ⟨fetch_failure_nonfatal.1 wFail "a" rfl,
   fetch_failure_nonfatal.2.1 wFail (Crawler.mk 2 1 [] [] [QueueEntry.mk "a" 0])
     (QueueEntry.mk "a" 0) [] rfl (by decide) (by decide) rfl,
   fetch_failure_nonfatal.2.2 wFail 2 1 "a" (by decide) rfl⟩

theorem crawlStep_queueBFS (w : World) (c : Crawler)
    (h : queueBFS c) : queueBFS (crawlStep w c) := by
  obtain ⟨hpair, hspread⟩ := h
  rcases hq : c.queue with _ | ⟨e, rest⟩
  · unfold crawlStep
    rw [hq]
    exact ⟨hpair, hspread⟩
  · rw [hq] at hpair hspread
    have hhead : ∀ a ∈ rest, e.depth ≤ a.depth := (List.pairwise_cons.mp hpair).1
    have hrestpair : List.Pairwise (fun a b => a.depth ≤ b.depth) rest :=
      (List.pairwise_cons.mp hpair).2
    by_cases hc : (isTooDeep c e.depth || isAlreadySeen c e.url) = true
    · rw [crawlStep_skip w c e rest hq hc]
      refine ⟨hrestpair, ?_⟩
      intro a ha b hb
      exact hspread a (List.mem_cons_of_mem e ha) b (List.mem_cons_of_mem e hb)
    · simp only [Bool.or_eq_true, not_or, Bool.not_eq_true] at hc
      rw [crawlStep_process w c e rest hq hc.1 hc.2]
      have hnewdepth : ∀ b ∈ (w.extractUrls (fetchPage w e.url) e.url).map
          (fun url => ({ url := url, depth := e.depth + 1 } : QueueEntry)),
          b.depth = e.depth + 1 := by
        intro b hb
        simp only [List.mem_map] at hb
        obtain ⟨u, -, rfl⟩ := hb
        rfl
      constructor
      · rw [List.pairwise_append]
        refine ⟨hrestpair, ?_, ?_⟩
        · rw [List.pairwise_map]
          exact List.pairwise_of_forall_mem_list (fun _ _ _ _ => le_refl _)
        · intro a ha b hb
          rw [hnewdepth b hb]
          exact hspread e (List.mem_cons_self e rest) a (List.mem_cons_of_mem e ha)
      · intro a ha b hb
        rcases List.mem_append.mp ha with ha2 | ha2 <;>
          rcases List.mem_append.mp hb with hb2 | hb2
        · exact hspread a (List.mem_cons_of_mem e ha2) b (List.mem_cons_of_mem e hb2)
        · rw [hnewdepth b hb2]
          have := hhead a ha2
          omega
        · rw [hnewdepth a ha2]
          have := hspread e (List.mem_cons_self e rest) b (List.mem_cons_of_mem e hb2)
          omega
        · rw [hnewdepth a ha2, hnewdepth b hb2]
          omega

theorem crawlStep_depth_mono (w : World) (c : Crawler) (e : QueueEntry)
    (rest : List QueueEntry) (h : queueBFS c) (hq : c.queue = e :: rest) :
    ∀ e2 ∈ (crawlStep w c).queue, e.depth ≤ e2.depth := by
  obtain ⟨hpair, -⟩ := h
  rw [hq] at hpair
  have hhead : ∀ a ∈ rest, e.depth ≤ a.depth := (List.pairwise_cons.mp hpair).1
  by_cases hc : (isTooDeep c e.depth || isAlreadySeen c e.url) = true
  · rw [crawlStep_skip w c e rest hq hc]
    exact hhead
  · simp only [Bool.or_eq_true, not_or, Bool.not_eq_true] at hc
    rw [crawlStep_process w c e rest hq hc.1 hc.2]
    intro e2 he2
    rcases List.mem_append.mp he2 with he3 | he3
    · exact hhead e2 he3
    · simp only [List.mem_map] at he3
      obtain ⟨u, -, rfl⟩ := he3
      exact Nat.le_succ_of_le (Nat.le_refl e.depth)

/-- C5: the frontier is a FIFO queue with unconditional enqueueing: a
processed entry is taken from the front and every extracted address is
pushed at the back at depth one more, with no seen or depth filtering at
enqueue time; a discarded entry is also taken from the front; the initial
frontier is breadth-first shaped, the breadth-first shape (nondecreasing
depths, spread at most one) is preserved by every step, and every entry
remaining after a step is at least as deep as the entry just dequeued —
so pages are visited in breadth-first depth order. -/
theorem crawl_fifo_bfs :
    (∀ (w : World) (c : Crawler) (e : QueueEntry) (rest : List QueueEntry),
      c.queue = e :: rest → isTooDeep c e.depth = false → isAlreadySeen c e.url = false →
      crawlStep w c =
        { c with seen := e.url :: c.seen,
                 pages := c.pages ++ [Page.mk e.url (w.parseHtml (fetchPage w e.url))],
                 queue := rest ++ (w.extractUrls (fetchPage w e.url) e.url).map
                   (fun url => { url := url, depth := e.depth + 1 }) }) ∧
    (∀ (w : World) (c : Crawler) (e : QueueEntry) (rest : List QueueEntry),
      c.queue = e :: rest → (isTooDeep c e.depth || isAlreadySeen c e.url) = true →
      crawlStep w c = { c with queue := rest }) ∧
    (∀ (d m : Nat) (s : String), queueBFS (addToQueue (Crawler.new d m) s 0)) ∧
    (∀ (w : World) (c : Crawler), queueBFS c → queueBFS (crawlStep w c)) ∧
    (∀ (w : World) (c : Crawler) (e : QueueEntry) (rest : List QueueEntry),
      queueBFS c → c.queue = e :: rest →
      ∀ e2 ∈ (crawlStep w c).queue, e.depth ≤ e2.depth) := by
  refine ⟨crawlStep_process, crawlStep_skip, ?_, crawlStep_queueBFS, crawlStep_depth_mono⟩
  intro d m s
  constructor
  · simp [addToQueue, Crawler.new]
  · intro a ha b hb
    simp only [addToQueue, Crawler.new, List.nil_append, List.mem_singleton] at ha hb
    subst ha
    subst hb
    exact Nat.le_succ 0

/-- Witness for C5 in the world `wLinks`: processing the seed pushes its
two links at the back at depth 1, a too-deep entry is dropped from the
front, the fresh frontier is breadth-first shaped, the shape survives a
step, and the dequeued depth bounds every remaining entry's depth. -/
theorem crawl_fifo_bfs_witness :
    crawlStep wLinks (Crawler.mk 1 5 [] [] [QueueEntry.mk "a" 0]) =
      Crawler.mk 1 5 ["a"] [Page.mk "a" "a"] [QueueEntry.mk "b" 1, QueueEntry.mk "c" 1] ∧
    crawlStep wLinks (Crawler.mk 1 5 [] [] [QueueEntry.mk "b" 2, QueueEntry.mk "c" 2]) =
      Crawler.mk 1 5 [] [] [QueueEntry.mk "c" 2] ∧
    queueBFS (addToQueue (Crawler.new 2 1) "a" 0) ∧
    queueBFS (crawlStep wLinks (Crawler.mk 1 5 [] [] [QueueEntry.mk "a" 0])) ∧
    (∀ e2 ∈ (crawlStep wLinks (Crawler.mk 1 5 [] []
        [QueueEntry.mk "a" 0, QueueEntry.mk "b" 1])).queue,
      (QueueEntry.mk "a" 0).depth ≤ e2.depth) := by
  refine ⟨?_, ?_, crawl_fifo_bfs.2.2.1 2 1 "a", ?_, ?_⟩
  · exact crawl_fifo_bfs.1 wLinks (Crawler.mk 1 5 [] [] [QueueEntry.mk "a" 0])
      (QueueEntry.mk "a" 0) [] rfl (by decide) (by decide)
  · exact crawl_fifo_bfs.2.1 wLinks
      (Crawler.mk 1 5 [] [] [QueueEntry.mk "b" 2, QueueEntry.mk "c" 2])
      (QueueEntry.mk "b" 2) [QueueEntry.mk "c" 2] rfl (by decide)
  · exact crawl_fifo_bfs.2.2.2.1 wLinks (Crawler.mk 1 5 [] [] [QueueEntry.mk "a" 0])
      (by constructor <;> decide)
  · exact crawl_fifo_bfs.2.2.2.2 wLinks
      (Crawler.mk 1 5 [] [] [QueueEntry.mk "a" 0, QueueEntry.mk "b" 1])
      (QueueEntry.mk "a" 0) [QueueEntry.mk "b" 1]
      (by constructor <;> decide) rfl

/-- C8 counterexample: after `crawl("a")` on a fresh engine has returned
one page, a second `crawl("b")` on the same engine instance starts from
the persisted instance state: it returns the first call's page `"a"` again
(and never visits `"b"`), so the second call's result does carry pages
over from the first. -/
theorem crawl_state_carryover_cex :
    (crawl wEmpty (Crawler.new 2 1) "a").1 = [Page.mk "a" ""] ∧
    (crawl wEmpty ((crawl wEmpty (Crawler.new 2 1) "a").2) "b").1 = [Page.mk "a" ""] := by
  have hrun1 : crawl wEmpty (Crawler.new 2 1) "a" =
      ([Page.mk "a" ""], Crawler.mk 2 1 ["a"] [Page.mk "a" ""] []) := by
    rw [show crawl wEmpty (Crawler.new 2 1) "a" =
      ((crawlLoop wEmpty (addToQueue (Crawler.new 2 1) "a" 0)).pages,
       crawlLoop wEmpty (addToQueue (Crawler.new 2 1) "a" 0)) from rfl]
    rw [crawlLoop_go _ _ (by decide), crawlLoop_stop _ _ (by decide)]
    decide
  refine ⟨by rw [hrun1], ?_⟩
  rw [hrun1]
  rw [show crawl wEmpty (Crawler.mk 2 1 ["a"] [Page.mk "a" ""] []) "b" =
    ((crawlLoop wEmpty (addToQueue (Crawler.mk 2 1 ["a"] [Page.mk "a" ""] []) "b" 0)).pages,
     crawlLoop wEmpty (addToQueue (Crawler.mk 2 1 ["a"] [Page.mk "a" ""] []) "b" 0)) from rfl]
  rw [crawlLoop_stop _ _ (by decide)]
  rfl

/-- C8 (amended): every freshly constructed engine starts with an empty
seen set and an empty page accumulator, and `seed` builds a fresh engine
per invocation, so successive `seed` invocations are independent; but the
instance state persists across `crawl` calls on one engine: whatever pages
the instance already holds come back as a prefix of the next call's
result. -/
theorem crawl_state_per_instance :
    (∀ d m : Nat, (Crawler.new d m).seen = [] ∧ (Crawler.new d m).pages = []) ∧
    (∀ (w : World) (splitText : SplitterParams → String → List String) (s : String)
       (dd mm : Option Nat) (o : Option SplitterOptions),
      seed w splitText s dd mm o =
        seedDocs (splitText (mkSplitterParams o))
          (crawl w (Crawler.new (dd.getD 2) (mm.getD 1)) s).1) ∧
    (∀ (w : World) (c : Crawler) (s : String), ∃ t, (crawl w c s).1 = c.pages ++ t) := by
  refine ⟨fun d m => ⟨rfl, rfl⟩, fun w splitText s dd mm o => rfl, fun w c s => ?_⟩
  obtain ⟨t, ht⟩ := crawlLoop_pages_extend w (addToQueue c s 0)
  refine ⟨t, ?_⟩
  rw [show (crawl w c s).1 = (crawlLoop w (addToQueue c s 0)).pages from rfl, ht]
  rfl
